import Mathlib

/-!
Verification of the bit-manipulation core of `src/main.pyw` (the `BitCalc`
Tkinter application).  The Python methods are shallowly embedded as Lean
functions: the unbounded Python `int` becomes `Int` (or `Nat` where the
operand is known non-negative), `x & ((1 <<< w) - 1)` becomes reduction
modulo `2 ^ w` (`andMask`), `x >> n` becomes Euclidean division by `2 ^ n`
(which agrees with Python's floor division for a positive divisor), and
`x << n` becomes multiplication by `2 ^ n`.  Strings are `List Char`
(ASCII fragment; the claims under study only involve ASCII text).
-/

namespace BitTool

/-- Embeds `_get_mask`'s mask for a bit width: `(1 << w) - 1` (from `src/main.pyw`,
`_get_mask`, with `w = num_bytes * 8`). -/
def mask (w : Nat) : Nat := (1 <<< w) - 1

/-- Python `x & ((1 << w) - 1)` on an arbitrary (possibly negative) `int`:
two's-complement AND with the all-ones `w`-bit mask, i.e. reduction modulo
`2 ^ w`.  Lean's `%` on `Int` is Euclidean and hence non-negative here,
matching Python's `%` with a positive modulus. -/
def andMask (x : Int) (w : Nat) : Int := x % (2 ^ w : Int)

/-- Embeds `_get_mask` (from `src/main.pyw`): mask for `num_bytes * 8` bits. -/
def getMask (numBytes : Nat) : Nat := mask (numBytes * 8)

/-- Embeds `_shift_left` core (from `src/main.pyw`): `(v << n) & mask`. -/
def shiftLeft (v w n : Nat) : Nat := (v <<< n) &&& mask w

/-- Embeds `_shift_right_logical` core (from `src/main.pyw`): `(v >> n) & mask`. -/
def shiftRightLogical (v w n : Nat) : Nat := (v >>> n) &&& mask w

/-- One iteration of the `_shift_right_arithmetic` loop (from
`src/main.pyw`): `val = (val >> 1) | (1 << (w - 1))` when the msb flag is
set, else `val = val >> 1`.  The flag `msb` is computed once, outside the
loop, exactly as in the source. -/
def asrStep (w msb val : Nat) : Nat :=
  if msb = 1 then (val >>> 1) ||| (1 <<< (w - 1)) else val >>> 1

/-- Embeds `_shift_right_arithmetic` core (from `src/main.pyw`): result `0` when
`w = 0`; otherwise `msb = (v >> (w-1)) & 1` is computed once, the loop body
runs `n` times, and the final value is masked. -/
def shiftRightArithmetic (v w n : Nat) : Nat :=
  if w = 0 then 0
  else ((asrStep w ((v >>> (w - 1)) &&& 1))^[n] v) &&& mask w

/-- The rotate-left expression of `_rotate_left` (from `src/main.pyw`):
`((val << k) | (val >> (w - k))) & mask`, with `val` already masked and
`k = amount % w`. -/
def rotlCore (val w k : Nat) : Nat := ((val <<< k) ||| (val >>> (w - k))) &&& mask w

/-- Embeds `_rotate_left` core (from `src/main.pyw`): no-op for `w = 0`, else the
amount is reduced `mod w`, the value is masked, and `rotlCore` applies. -/
def rotateLeft (v w n : Nat) : Nat :=
  if w = 0 then v else rotlCore (v &&& mask w) w (n % w)

/-- The rotate-right expression of `_rotate_right` (from `src/main.pyw`):
`((val >> k) | (val << (w - k))) & mask`. -/
def rotrCore (val w k : Nat) : Nat := ((val >>> k) ||| (val <<< (w - k))) &&& mask w

/-- Embeds `_rotate_right` core (from `src/main.pyw`). -/
def rotateRight (v w n : Nat) : Nat :=
  if w = 0 then v else rotrCore (v &&& mask w) w (n % w)

/-- Embeds `_invert_bits` core (from `src/main.pyw`): `(~v) & mask`, where Python's
`~v` on an `int` is `-v - 1`; the conjunction with the mask is reduction
modulo `2 ^ w`, which is non-negative, so the result is returned as `Nat`. -/
def invert (v w : Nat) : Nat := (andMask (-(v : Int) - 1) w).toNat

/-- One iteration of the `_reverse_bits` loop (from `src/main.pyw`):
`if (val >> i) & 1: reversed_val |= 1 << (w - 1 - i)`. -/
def reverseStep (val w acc i : Nat) : Nat :=
  if (val >>> i) &&& 1 = 1 then acc ||| (1 <<< (w - 1 - i)) else acc

/-- The `_reverse_bits` loop over `i in range(w)` starting from
`reversed_val = 0` (from `src/main.pyw`). -/
def reverseCore (val w : Nat) : Nat := (List.range w).foldl (reverseStep val w) 0

/-- Embeds `_reverse_bits` core (from `src/main.pyw`): the operand is masked
(`val = value & mask`) and then the loop builds the reversed value. -/
def reverseBits (v w : Nat) : Nat := reverseCore (v &&& mask w) w

/-- The signed-decimal branch of `_update_from_entry` (from `src/main.pyw`,
the `source == "dec" and signed_mode` case): `numVal` is the integer already
read from the text by Python's `int`, `numBits` the active width.  Negative
and in range: two's-complement encode `(1 << numBits) + numVal`; negative
out of range: truncate `numVal & mask`; non-negative below `2^(numBits-1)`:
store as is; otherwise truncate `numVal & mask`. -/
def parseSignedDec (numVal : Int) (numBits : Nat) : Int :=
  if numVal < 0 then
    if -((2 : Int) ^ (numBits - 1)) ≤ numVal then (2 : Int) ^ numBits + numVal
    else andMask numVal numBits
  else
    if numVal < (2 : Int) ^ (numBits - 1) then numVal
    else andMask numVal numBits

/-- The signed-decimal display number of `_update_display` (from
`src/main.pyw`): the shown text is `str` of this integer; if the msb of the
masked value is set the two's-complement reading `value - (1 << numBits)` is
shown, else the value itself. -/
def formatSignedDec (v numBits : Nat) : Int :=
  let displayValue := v &&& mask numBits
  if (displayValue >>> (numBits - 1)) &&& 1 = 1 then
    (displayValue : Int) - (2 : Int) ^ numBits
  else (displayValue : Int)

/-- The closed-form sign-extension rule for the arithmetic right shift as
the specification states it: with `msb = (v >> (w-1)) & 1`, if `msb = 1` the
result is `(v >> n) | (mask(w) & ~(mask(w) >> n))` for `n < w` and `mask w`
for `n ≥ w`; if `msb = 0` it is the logical right shift.  The subterm
`mask(w) & ~y` is exactly `invert y w` (Python `~y` is `-y - 1`). -/
def asrSpec (v w n : Nat) : Nat :=
  if (v >>> (w - 1)) &&& 1 = 1 then
    if n < w then (v >>> n) ||| invert (mask w >>> n) w
    else mask w
  else shiftRightLogical v w n

/-!
Model of CPython's `int(text, base)` for ASCII text (the validators and
`_update_from_entry` call it via `try/except ValueError`).  `int` strips
surrounding whitespace, then allows one optional `+`/`-` sign, an optional
base marker `0x`/`0o`/`0b` matching the base (with at most one underscore
straight after it), and then a non-empty run of digits of the base in which
single underscores may separate digits.  Python additionally accepts some
non-ASCII digit and space characters; the texts relevant here are ASCII.
-/

/-- Digit value of an ASCII character as used by `int`: `0`-`9`, `a`-`z`,
`A`-`Z`. -/
def digitVal (c : Char) : Option Nat :=
  if '0' ≤ c ∧ c ≤ '9' then some (c.toNat - 48)
  else if 'a' ≤ c ∧ c ≤ 'z' then some (c.toNat - 87)
  else if 'A' ≤ c ∧ c ≤ 'Z' then some (c.toNat - 55)
  else none

/-- Is `c` a valid digit for `base`? -/
def isDigitOf (base : Nat) (c : Char) : Bool :=
  match digitVal c with
  | some v => decide (v < base)
  | none => false

/-- ASCII whitespace stripped by `str.strip()` and by `int`. -/
def isSpaceChar (c : Char) : Bool :=
  c == ' ' || c == '\t' || c == '\n' || c == '\r' ||
    c == Char.ofNat 11 || c == Char.ofNat 12

/-- Strip leading and trailing whitespace (Python `str.strip()`). -/
def stripWS (l : List Char) : List Char :=
  ((l.dropWhile isSpaceChar).reverse.dropWhile isSpaceChar).reverse

/-- Split one optional leading sign, returning the sign as `1` or `-1`. -/
def signSplit (l : List Char) : Int × List Char :=
  match l with
  | c :: rest => if c = '+' then (1, rest) else if c = '-' then (-1, rest) else (1, l)
  | [] => (1, [])

/-- Drop at most one leading underscore (allowed straight after a base
marker such as `0x`). -/
def dropOneUnderscore (l : List Char) : List Char :=
  match l with
  | c :: rest => if c = '_' then rest else l
  | [] => []

/-- Strip the base marker `0x`/`0X` (base 16), `0o`/`0O` (base 8) or
`0b`/`0B` (base 2) when present, together with at most one underscore
following it. -/
def stripBaseMarker (base : Nat) (l : List Char) : List Char :=
  match l with
  | c0 :: c1 :: rest =>
    if c0 = '0' ∧ ((base = 16 ∧ (c1 = 'x' ∨ c1 = 'X')) ∨
        (base = 8 ∧ (c1 = 'o' ∨ c1 = 'O')) ∨
        (base = 2 ∧ (c1 = 'b' ∨ c1 = 'B')))
    then dropOneUnderscore rest
    else l
  | _ => l

/-- The digits after the first one: single underscores may occur, each
followed by a further digit. -/
def digitsValTail (base : Nat) : List Char → Nat → Option Nat
  | [], acc => some acc
  | c :: rest, acc =>
    if c = '_' then
      match rest with
      | [] => none
      | d :: rest2 =>
        match digitVal d with
        | some v => if v < base then digitsValTail base rest2 (acc * base + v) else none
        | none => none
    else
      match digitVal c with
      | some v => if v < base then digitsValTail base rest (acc * base + v) else none
      | none => none

/-- A non-empty digit run: the first character must be a digit (never an
underscore), the rest may contain single separating underscores. -/
def digitsVal (base : Nat) (l : List Char) : Option Nat :=
  match l with
  | [] => none
  | c :: rest =>
    match digitVal c with
    | some v => if v < base then digitsValTail base rest v else none
    | none => none

/-- CPython `int(text, base)` on ASCII text: `some` of the value on success
(the sign applied to the digit magnitude), `none` when `ValueError` would be
raised. -/
def pyInt (l : List Char) (base : Nat) : Option Int :=
  (digitsVal base (stripBaseMarker base (signSplit (stripWS l)).2)).map
    (fun m : Nat => (signSplit (stripWS l)).1 * (m : Int))

/-- Embeds `_validate_input` (from `src/main.pyw`): accept empty text, else accept
iff `int(P, base)` succeeds. -/
def validateInput (P : String) (base : Nat) : Bool :=
  P == "" || (pyInt P.data base).isSome

/-- Embeds `_validate_hex` (from `src/main.pyw`). -/
def validateHex (P : String) : Bool := validateInput P 16

/-- Embeds `_validate_oct` (from `src/main.pyw`). -/
def validateOct (P : String) : Bool := validateInput P 8

/-- Embeds `_validate_bin` (from `src/main.pyw`). -/
def validateBin (P : String) : Bool := validateInput P 2

/-- Python `P.startswith("-")`. -/
def startsWithNeg (l : List Char) : Bool :=
  match l with
  | c :: _ => c == '-'
  | [] => false

/-- Embeds `_validate_dec` (from `src/main.pyw`): in signed mode a lone `-` is
accepted and a text starting with `-` is accepted iff `int(P)` succeeds; in
unsigned mode a text starting with `-` is rejected, anything else goes
through `_validate_input(P, 10)`. -/
def validateDec (signedMode : Bool) (P : String) : Bool :=
  if signedMode then
    if P == "-" then true
    else if startsWithNeg P.data then (pyInt P.data 10).isSome
    else validateInput P 10
  else
    if startsWithNeg P.data then false
    else validateInput P 10

/-- Which entry field fired the `_update_from_entry` callback. -/
inductive EntrySource
  | hex
  | dec
  | oct
  | bin
deriving DecidableEq, Repr

/-- The numeric base of an entry field (`base_map` in `src/main.pyw`). -/
def baseOf : EntrySource → Nat
  | .hex => 16
  | .dec => 10
  | .oct => 8
  | .bin => 2

/-- The mutable state of the `BitCalc` application that the claims are
about: `_current_value` (a Python `int`, hence `Int`), the selected byte
count, the signed-display flag and the shift amount (an `IntVar`, so it can
in principle hold a negative value). -/
structure BitCalcState where
  currentValue : Int
  numBytes : Nat
  signedMode : Bool
  shiftAmount : Int
deriving DecidableEq, Repr

/-- Embeds `_update_from_entry` (from `src/main.pyw`).  The text is stripped; empty
text stores `0`; in signed decimal mode the four-case signed rule applies to
the parsed integer; every other field stores the raw result of
`int(value_str, base)` unchanged; a `ValueError` leaves the state as it was
(`_update_display` itself does not write `_current_value`). -/
def updateFromEntry (s : BitCalcState) (source : EntrySource) (text : String) :
    BitCalcState :=
  if stripWS text.data = [] then { s with currentValue := 0 }
  else
    match source, s.signedMode with
    | .dec, true =>
      match pyInt (stripWS text.data) 10 with
      | some numVal => { s with currentValue := parseSignedDec numVal (s.numBytes * 8) }
      | none => s
    | _, _ =>
      match pyInt (stripWS text.data) (baseOf source) with
      | some v => { s with currentValue := v }
      | none => s

/-- The reconstruction loop of `_update_from_bits` (from `src/main.pyw`):
starting from `0`, OR in `1 << i` for every set checkbox variable
`i < 64`. -/
def bitsValue (bitVars : Nat → Bool) : Nat :=
  (List.range 64).foldl (fun acc i => if bitVars i then acc ||| (1 <<< i) else acc) 0

/-- Embeds `_update_from_bits` (from `src/main.pyw`): rebuild the value from the 64
checkbox variables. -/
def updateFromBits (s : BitCalcState) (bitVars : Nat → Bool) : BitCalcState :=
  { s with currentValue := (bitsValue bitVars : Int) }

/-- Selecting a byte count: the radio button writes `num_bytes_var` and
`_on_num_bytes_change` (from `src/main.pyw`) then masks `_current_value`
with the new mask. -/
def setNumBytes (s : BitCalcState) (b : Nat) : BitCalcState :=
  let s' := { s with numBytes := b }
  { s' with currentValue := andMask s'.currentValue (s'.numBytes * 8) }

/-- Toggling the signed checkbox only rewrites the display
(`_update_display` reads but never writes `_current_value`). -/
def setSignedMode (s : BitCalcState) (b : Bool) : BitCalcState :=
  { s with signedMode := b }

/-- Embeds `_shift_left` (from `src/main.pyw`): negative amounts return
immediately; else `(value << amount) & mask` is stored. -/
def shiftLeftOp (s : BitCalcState) : BitCalcState :=
  if s.shiftAmount < 0 then s
  else { s with currentValue := andMask (s.currentValue * (2 : Int) ^ s.shiftAmount.toNat) (s.numBytes * 8) }

/-- Embeds `_shift_right_logical` (from `src/main.pyw`): `(value >> amount) & mask`;
Python's `>>` is floor division by `2 ^ amount`, which for the positive
divisor coincides with Lean's Euclidean `/`. -/
def shiftRightLogicalOp (s : BitCalcState) : BitCalcState :=
  if s.shiftAmount < 0 then s
  else { s with currentValue := andMask (s.currentValue / (2 : Int) ^ s.shiftAmount.toNat) (s.numBytes * 8) }

/-- The `_shift_right_arithmetic` loop body on the Python `int`
(`(val >> 1) | (1 << (numBits - 1))` when the msb flag was set). -/
def asrIntStep (numBits : Nat) (msb val : Int) : Int :=
  if msb = 1 then Int.lor (val / 2) ((2 : Int) ^ (numBits - 1)) else val / 2

/-- Embeds `_shift_right_arithmetic` (from `src/main.pyw`) as a state transition:
guard on negative amount, store `0` for a zero width, else run the loop and
mask the result. -/
def shiftRightArithmeticOp (s : BitCalcState) : BitCalcState :=
  if s.shiftAmount < 0 then s
  else
    if s.numBytes * 8 = 0 then { s with currentValue := 0 }
    else { s with currentValue := andMask ((asrIntStep (s.numBytes * 8) (s.currentValue / (2 : Int) ^ (s.numBytes * 8 - 1) % 2))^[s.shiftAmount.toNat] s.currentValue) (s.numBytes * 8) }

/-- Embeds `_rotate_left` (from `src/main.pyw`) as a state transition. -/
def rotateLeftOp (s : BitCalcState) : BitCalcState :=
  if s.shiftAmount < 0 then s
  else
    if s.numBytes * 8 = 0 then s
    else { s with currentValue := ((rotlCore (andMask s.currentValue (s.numBytes * 8)).toNat (s.numBytes * 8) (s.shiftAmount.toNat % (s.numBytes * 8)) : Nat) : Int) }

/-- Embeds `_rotate_right` (from `src/main.pyw`) as a state transition. -/
def rotateRightOp (s : BitCalcState) : BitCalcState :=
  if s.shiftAmount < 0 then s
  else
    if s.numBytes * 8 = 0 then s
    else { s with currentValue := ((rotrCore (andMask s.currentValue (s.numBytes * 8)).toNat (s.numBytes * 8) (s.shiftAmount.toNat % (s.numBytes * 8)) : Nat) : Int) }

/-- Embeds `_invert_bits` (from `src/main.pyw`): `(~value) & mask` with `~value`
being `-value - 1`. -/
def invertOp (s : BitCalcState) : BitCalcState :=
  { s with currentValue := andMask (-s.currentValue - 1) (s.numBytes * 8) }

/-- Embeds `_reverse_bits` (from `src/main.pyw`) as a state transition: the value
is masked (hence non-negative) and the reversal loop runs over `Nat`. -/
def reverseBitsOp (s : BitCalcState) : BitCalcState :=
  { s with currentValue := ((reverseCore (andMask s.currentValue (s.numBytes * 8)).toNat (s.numBytes * 8) : Nat) : Int) }

/-- Embeds `_clear_bits` (from `src/main.pyw`). -/
def clearOp (s : BitCalcState) : BitCalcState :=
  { s with currentValue := 0 }

/-! ### Basic facts about the mask and the two's-complement helpers -/

theorem mask_eq (w : Nat) : mask w = 2 ^ w - 1 := by
  unfold mask
  rw [Nat.one_shiftLeft]

theorem mask_lt (w : Nat) : mask w < 2 ^ w := by
  rw [mask_eq]
  have := Nat.two_pow_pos w
  omega

theorem and_mask_eq_mod (v w : Nat) : v &&& mask w = v % 2 ^ w := by
  rw [mask_eq, Nat.and_pow_two_sub_one_eq_mod]

theorem and_mask_of_lt {v w : Nat} (h : v < 2 ^ w) : v &&& mask w = v := by
  rw [and_mask_eq_mod, Nat.mod_eq_of_lt h]

theorem and_mask_lt (v w : Nat) : v &&& mask w < 2 ^ w :=
  Nat.lt_of_le_of_lt Nat.and_le_right (mask_lt w)

theorem testBit_mask (w j : Nat) : (mask w).testBit j = decide (j < w) := by
  rw [mask_eq, Nat.testBit_two_pow_sub_one]

theorem testBit_ge {v w j : Nat} (hv : v < 2 ^ w) (hj : w ≤ j) : v.testBit j = false :=
  Nat.testBit_lt_two_pow
    (Nat.lt_of_lt_of_le hv (Nat.pow_le_pow_right (by omega) hj))

theorem andMask_nonneg (x : Int) (w : Nat) : 0 ≤ andMask x w :=
  Int.emod_nonneg x (by positivity)

theorem andMask_lt (x : Int) (w : Nat) : andMask x w < 2 ^ w :=
  Int.emod_lt_of_pos x (by positivity)

theorem neg_sub_one_emod {x m : Int} (h0 : 0 ≤ x) (h1 : x < m) :
    (-x - 1) % m = m - 1 - x := by
  calc (-x - 1) % m = (-x - 1 + m * 1) % m := (Int.add_mul_emod_self_left _ _ _).symm
    _ = (m - 1 - x) % m := by rw [show -x - 1 + m * 1 = m - 1 - x by ring]
    _ = m - 1 - x := Int.emod_eq_of_lt (by omega) (by omega)

theorem invert_eq {v w : Nat} (h : v < 2 ^ w) : invert v w = 2 ^ w - 1 - v := by
  have hcast : ((2 : Int) ^ w) = ((2 ^ w : Nat) : Int) := by push_cast; ring
  have hv : ((v : Int)) < (2 : Int) ^ w := by rw [hcast]; exact_mod_cast h
  have h2 : invert v w = ((2 : Int) ^ w - 1 - (v : Int)).toNat := by
    unfold invert andMask
    rw [neg_sub_one_emod (Int.natCast_nonneg v) hv]
  rw [h2, hcast]
  omega

theorem invert_lt {v w : Nat} (h : v < 2 ^ w) : invert v w < 2 ^ w := by
  rw [invert_eq h]
  have := Nat.two_pow_pos w
  omega

/-! ### Claim C9: negative shift/rotate amounts are no-ops -/

/-- C9: for every shift and rotate operation (SHL, LSR, ASR, ROL, ROR), a
negative amount makes the operation a no-op: the whole state — in
particular the stored value — is unchanged.  The embedded transitions are
total functions, so no error is raised. -/
theorem neg_amount_noop (s : BitCalcState) (h : s.shiftAmount < 0) :
    shiftLeftOp s = s ∧ shiftRightLogicalOp s = s ∧ shiftRightArithmeticOp s = s ∧
      rotateLeftOp s = s ∧ rotateRightOp s = s := by
  unfold shiftLeftOp shiftRightLogicalOp shiftRightArithmeticOp rotateLeftOp rotateRightOp
  simp [h]

/-- Witness for C9 at a concrete state with amount `-1`. -/
theorem neg_amount_noop_witness :
    shiftLeftOp ⟨5, 1, false, -1⟩ = ⟨5, 1, false, -1⟩ ∧
      shiftRightLogicalOp ⟨5, 1, false, -1⟩ = ⟨5, 1, false, -1⟩ ∧
      shiftRightArithmeticOp ⟨5, 1, false, -1⟩ = ⟨5, 1, false, -1⟩ ∧
      rotateLeftOp ⟨5, 1, false, -1⟩ = ⟨5, 1, false, -1⟩ ∧
      rotateRightOp ⟨5, 1, false, -1⟩ = ⟨5, 1, false, -1⟩ :=
  neg_amount_noop ⟨5, 1, false, -1⟩ (by decide)

/-! ### Claim C7: changing the byte count truncates to the new width -/

/-- C7: selecting `bytes ∈ [1,8]` sets the width to `bytes * 8` bits and
replaces the stored value by its conjunction with `mask (bytes*8)`
(reduction mod `2 ^ (bytes*8)`, which is the bitwise AND with the mask for
the non-negative stored values); all bits at or above the new width become
`0`.  In particular `0x1FF` stored at 2 bytes truncates to `0xFF` when 1
byte is selected. -/
theorem setNumBytes_spec (s : BitCalcState) (b : Nat) (h1 : 1 ≤ b) (h2 : b ≤ 8) :
    (setNumBytes s b).numBytes = b ∧
    (setNumBytes s b).currentValue = s.currentValue % ((2 : Int) ^ (b * 8)) ∧
    (0 ≤ s.currentValue →
      (setNumBytes s b).currentValue = ((s.currentValue.toNat &&& mask (b * 8) : Nat) : Int)) ∧
    (∀ i, b * 8 ≤ i → (setNumBytes s b).currentValue.toNat.testBit i = false) ∧
    (setNumBytes ⟨0x1FF, 2, false, 1⟩ 1).currentValue = 0xFF := by
  refine ⟨rfl, rfl, ?_, ?_, by decide⟩
  · intro hnn
    show andMask s.currentValue (b * 8) = _
    unfold andMask
    rw [and_mask_eq_mod]
    push_cast
    rw [Int.toNat_of_nonneg hnn]
  · intro i hi
    have h0 : 0 ≤ andMask s.currentValue (b * 8) := andMask_nonneg _ _
    have hlt : andMask s.currentValue (b * 8) < 2 ^ (b * 8) := andMask_lt _ _
    have hltn : (andMask s.currentValue (b * 8)).toNat < 2 ^ (b * 8) := by
      have hc : ((2 : Int) ^ (b * 8)) = ((2 ^ (b * 8) : Nat) : Int) := by push_cast; ring
      rw [hc] at hlt
      omega
    exact testBit_ge hltn hi

/-- Witness for C7: the spec's concrete scenario, 2 bytes holding `0x1FF`
narrowed to 1 byte. -/
theorem setNumBytes_spec_witness :
    (setNumBytes ⟨0x1FF, 2, false, 1⟩ 1).currentValue = 0xFF :=
  (setNumBytes_spec ⟨0x1FF, 2, false, 1⟩ 1 (by decide) (by decide)).2.2.2.2

/-! ### Claims C3 and C4: signed decimal parsing and the round trip -/

theorem two_pow_split {w : Nat} (hw : 1 ≤ w) : (2 : Nat) ^ w = 2 * 2 ^ (w - 1) := by
  conv_lhs => rw [show w = (w - 1) + 1 by omega]
  rw [pow_succ]
  ring

theorem two_pow_split_int {w : Nat} (hw : 1 ≤ w) : (2 : Int) ^ w = 2 * 2 ^ (w - 1) := by
  conv_lhs => rw [show w = (w - 1) + 1 by omega]
  rw [pow_succ]
  ring

/-- The msb test of `_update_display` and `_shift_right_arithmetic`:
`(v >> (w-1)) & 1 = 1` iff `2^(w-1) ≤ v`, for `v < 2^w`. -/
theorem msb_one_iff {v w : Nat} (hw : 1 ≤ w) (hv : v < 2 ^ w) :
    ((v >>> (w - 1)) &&& 1 = 1) ↔ 2 ^ (w - 1) ≤ v := by
  rw [Nat.shiftRight_eq_div_pow, Nat.and_one_is_mod]
  have hp : 0 < 2 ^ (w - 1) := Nat.two_pow_pos _
  have hv2 : v < 2 * 2 ^ (w - 1) := by rw [← two_pow_split hw]; exact hv
  constructor
  · intro h
    by_contra hlt
    rw [Nat.div_eq_of_lt (by omega)] at h
    simp at h
  · intro h
    have h1 : v / 2 ^ (w - 1) = 1 :=
      Nat.div_eq_of_lt_le (by rw [Nat.one_mul]; exact h) (by omega)
    rw [h1]

/-- C3: the four-case rule for a complete signed decimal literal `lit` at
width `w`: non-negative below `2^(w-1)` is stored as is; non-negative at or
above `2^(w-1)` is truncated to `magnitude & mask w`; negative down to
`-2^(w-1)` is two's-complement encoded as `2^w + lit`; negative below that
is truncated to `lit & mask w`, which on the negative Python operand is
reduction mod `2^w`. -/
theorem parseSignedDec_cases (w : Nat) (h8 : 8 ≤ w) (h64 : w ≤ 64) (lit : Int) :
    (0 ≤ lit → lit < 2 ^ (w - 1) → parseSignedDec lit w = lit) ∧
    (0 ≤ lit → 2 ^ (w - 1) ≤ lit →
      parseSignedDec lit w = ((lit.toNat &&& mask w : Nat) : Int)) ∧
    (lit < 0 → -((2 : Int) ^ (w - 1)) ≤ lit → parseSignedDec lit w = 2 ^ w + lit) ∧
    (lit < 0 → lit < -((2 : Int) ^ (w - 1)) → parseSignedDec lit w = lit % ((2 : Int) ^ w)) := by
  have hp : (0 : Int) < 2 ^ (w - 1) := by positivity
  refine ⟨?_, ?_, ?_, ?_⟩
  · intro h0 hlt
    unfold parseSignedDec
    rw [if_neg (by omega), if_pos hlt]
  · intro h0 hge
    unfold parseSignedDec andMask
    rw [if_neg (by omega), if_neg (by omega)]
    rw [and_mask_eq_mod]
    push_cast
    rw [Int.toNat_of_nonneg h0]
  · intro h0 hge
    unfold parseSignedDec
    rw [if_pos h0, if_pos hge]
  · intro h0 hlt
    unfold parseSignedDec andMask
    rw [if_pos h0, if_neg (by omega)]

/-- Witness for C3: `-1` at width 8 is encoded as `2^8 - 1 = 255`. -/
theorem parseSignedDec_cases_witness : parseSignedDec (-1) 8 = 2 ^ 8 + (-1) :=
  (parseSignedDec_cases 8 (by decide) (by decide) (-1)).2.2.1 (by decide) (by decide)

/-- C4: the signed decimal round trip.  `formatSignedDec v w` is the
integer whose decimal rendering `_update_display` puts into the DEC field
(negative, `'-'`-prefixed text exactly when bit `w-1` of `v` is set), and
Python's `int` reads that text back to the same integer, to which the
signed parse rule of `_update_from_entry` applies; the composition returns
the original stored value. -/
theorem signed_roundtrip (w : Nat) (h8 : 8 ≤ w) (h64 : w ≤ 64) (v : Nat)
    (hv : v ≤ mask w) :
    parseSignedDec (formatSignedDec v w) w = (v : Int) := by
  have hw1 : 1 ≤ w := by omega
  have hvlt : v < 2 ^ w := by have := mask_lt w; omega
  have hsplit := two_pow_split hw1
  have hsplitI := two_pow_split_int hw1
  have hcast : ((2 : Int) ^ w) = ((2 ^ w : Nat) : Int) := by push_cast; ring
  have hcast1 : ((2 : Int) ^ (w - 1)) = ((2 ^ (w - 1) : Nat) : Int) := by push_cast; ring
  have hvI : (v : Int) < ((2 ^ w : Nat) : Int) := by exact_mod_cast hvlt
  have hsplitC : ((2 ^ w : Nat) : Int) = 2 * ((2 ^ (w - 1) : Nat) : Int) := by
    exact_mod_cast hsplit
  unfold formatSignedDec
  rw [and_mask_of_lt hvlt]
  by_cases hmsb : (v >>> (w - 1)) &&& 1 = 1
  · have hge : 2 ^ (w - 1) ≤ v := (msb_one_iff hw1 hvlt).mp hmsb
    have hgeI : ((2 ^ (w - 1) : Nat) : Int) ≤ (v : Int) := by exact_mod_cast hge
    have hneg : (v : Int) - (2 : Int) ^ w < 0 := by rw [hcast]; omega
    have hrange : -((2 : Int) ^ (w - 1)) ≤ (v : Int) - (2 : Int) ^ w := by
      rw [hcast, hcast1]; omega
    rw [if_pos hmsb]
    unfold parseSignedDec
    rw [if_pos hneg, if_pos hrange]
    ring
  · have hlt : v < 2 ^ (w - 1) := by
      rcases Nat.lt_or_ge v (2 ^ (w - 1)) with h | h
      · exact h
      · exact absurd ((msb_one_iff hw1 hvlt).mpr h) hmsb
    rw [if_neg hmsb]
    unfold parseSignedDec
    rw [if_neg (by exact not_lt.mpr (Int.natCast_nonneg v)),
      if_pos (by rw [hcast1]; exact_mod_cast hlt)]

/-! ### Bit-level description of the `_reverse_bits` loop -/

theorem and_one_eq_one_iff {val i : Nat} :
    ((val >>> i) &&& 1 = 1) ↔ val.testBit i = true := by
  rw [Nat.testBit_to_div_mod, Nat.shiftRight_eq_div_pow, Nat.and_one_is_mod]
  simp

theorem foldl_reverseStep_testBit (val w : Nat) (l : List Nat) :
    ∀ (acc j : Nat),
      ((l.foldl (reverseStep val w) acc).testBit j) =
        (acc.testBit j ||
          l.any (fun i => decide ((val >>> i) &&& 1 = 1) && decide (w - 1 - i = j))) := by
  induction l with
  | nil => intro acc j; simp
  | cons c rest ih =>
    intro acc j
    rw [List.foldl_cons, ih, List.any_cons]
    unfold reverseStep
    by_cases hc : (val >>> c) &&& 1 = 1
    · rw [if_pos hc, Nat.testBit_or, Nat.one_shiftLeft, Nat.testBit_two_pow]
      rw [decide_eq_true hc, Bool.true_and]
      cases acc.testBit j <;> cases hd : decide (w - 1 - c = j) <;> simp
    · rw [if_neg hc]
      rw [decide_eq_false hc, Bool.false_and, Bool.false_or]

theorem reverseCore_testBit (val w j : Nat) :
    (reverseCore val w).testBit j = (decide (j < w) && val.testBit (w - 1 - j)) := by
  unfold reverseCore
  rw [foldl_reverseStep_testBit, Nat.zero_testBit, Bool.false_or]
  rw [Bool.eq_iff_iff]
  constructor
  · intro h
    rw [List.any_eq_true] at h
    obtain ⟨i, hmem, hcond⟩ := h
    rw [List.mem_range] at hmem
    simp only [Bool.and_eq_true, decide_eq_true_eq] at hcond
    obtain ⟨hbit, hij⟩ := hcond
    simp only [Bool.and_eq_true, decide_eq_true_eq]
    have hjlt : j < w := by omega
    have hieq : i = w - 1 - j := by omega
    exact ⟨hjlt, by rw [← hieq]; exact and_one_eq_one_iff.mp hbit⟩
  · intro h
    simp only [Bool.and_eq_true, decide_eq_true_eq] at h
    obtain ⟨hjlt, hbit⟩ := h
    rw [List.any_eq_true]
    refine ⟨w - 1 - j, ?_, ?_⟩
    · rw [List.mem_range]; omega
    · simp only [Bool.and_eq_true, decide_eq_true_eq]
      exact ⟨and_one_eq_one_iff.mpr hbit, by omega⟩

theorem reverseCore_lt (val w : Nat) : reverseCore val w < 2 ^ w := by
  apply Nat.lt_pow_two_of_testBit
  intro i hi
  rw [reverseCore_testBit]
  have hni : ¬ i < w := by omega
  simp [hni]

/-! ### Claim C6: reverse and invert are involutions -/

/-- C6: for every width `w ∈ {8,...,64}` and every `v ∈ [0, 2^w - 1]`,
reversing the bit order twice and complementing twice both return `v`. -/
theorem involution_laws (w v : Nat) (h8 : 8 ≤ w) (h64 : w ≤ 64) (hv : v ≤ mask w) :
    reverseBits (reverseBits v w) w = v ∧ invert (invert v w) w = v := by
  have hvlt : v < 2 ^ w := Nat.lt_of_le_of_lt hv (mask_lt w)
  constructor
  · unfold reverseBits
    rw [and_mask_of_lt hvlt, and_mask_of_lt (reverseCore_lt v w)]
    apply Nat.eq_of_testBit_eq
    intro j
    rw [reverseCore_testBit]
    by_cases hj : j < w
    · rw [decide_eq_true hj, Bool.true_and, reverseCore_testBit]
      have hlt2 : w - 1 - j < w := by omega
      rw [decide_eq_true hlt2, Bool.true_and]
      congr 1
      omega
    · rw [decide_eq_false hj, Bool.false_and]
      exact (testBit_ge hvlt (by omega)).symm
  · have h1 : invert v w = 2 ^ w - 1 - v := invert_eq hvlt
    have h2 : invert v w < 2 ^ w := invert_lt hvlt
    rw [invert_eq h2, h1]
    have := Nat.two_pow_pos w
    omega

/-- Witness for C6 at `w = 8`, `v = 165`. -/
theorem involution_laws_witness :
    reverseBits (reverseBits 165 8) 8 = 165 ∧ invert (invert 165 8) 8 = 165 :=
  involution_laws 8 165 (by decide) (by decide) (by decide)

/-! ### Claim C10: rotations, reverse and invert ignore bits above the width -/

/-- C10: `rotateLeft`, `rotateRight`, `reverseBits` and `invert` are
insensitive to bits at or above the active width: applying them to `v` and
to `v &&& mask w` gives the same result, for every `v`, every
`w ∈ {8,...,64}` and every amount `n`. -/
theorem ops_mask_insensitive (v w n : Nat) (h8 : 8 ≤ w) (h64 : w ≤ 64) :
    rotateLeft v w n = rotateLeft (v &&& mask w) w n ∧
    rotateRight v w n = rotateRight (v &&& mask w) w n ∧
    reverseBits v w = reverseBits (v &&& mask w) w ∧
    invert v w = invert (v &&& mask w) w := by
  have hidem : (v &&& mask w) &&& mask w = v &&& mask w := by
    rw [Nat.and_assoc, Nat.and_self]
  refine ⟨?_, ?_, ?_, ?_⟩
  · unfold rotateLeft
    rw [if_neg (by omega), if_neg (by omega), hidem]
  · unfold rotateRight
    rw [if_neg (by omega), if_neg (by omega), hidem]
  · unfold reverseBits
    rw [hidem]
  · unfold invert andMask
    congr 1
    have hmq : (((v &&& mask w : Nat)) : Int) = (v : Int) % ((2 : Int) ^ w) := by
      rw [and_mask_eq_mod]
      push_cast
      rfl
    rw [hmq]
    have h1 : Int.ModEq ((2 : Int) ^ w) ((v : Int)) ((v : Int) % (2 : Int) ^ w) :=
      (Int.emod_emod_of_dvd _ dvd_rfl).symm
    exact Int.ModEq.sub (Int.ModEq.neg h1) (Int.ModEq.refl 1)

/-- Witness for C10 at `v = 0x1234` (which exceeds `mask 8`), `w = 8`,
`n = 3`. -/
theorem ops_mask_insensitive_witness :
    rotateLeft 0x1234 8 3 = rotateLeft (0x1234 &&& mask 8) 8 3 ∧
    rotateRight 0x1234 8 3 = rotateRight (0x1234 &&& mask 8) 8 3 ∧
    reverseBits 0x1234 8 = reverseBits (0x1234 &&& mask 8) 8 ∧
    invert 0x1234 8 = invert (0x1234 &&& mask 8) 8 :=
  ops_mask_insensitive 0x1234 8 3 (by decide) (by decide)

/-- Witness for C4 at the spec's scenario C: `200` at width 8 formats to
`-56` and parses back to `200`. -/
theorem signed_roundtrip_witness : parseSignedDec (formatSignedDec 200 8) 8 = (200 : Int) :=
  signed_roundtrip 8 (by decide) (by decide) 200 (by decide)

/-! ### Claim C5: rotate right undoes rotate left -/

theorem rotlCore_testBit (val w k j : Nat) :
    (rotlCore val w k).testBit j =
      (((decide (j ≥ k) && val.testBit (j - k)) || val.testBit (w - k + j)) &&
        decide (j < w)) := by
  unfold rotlCore
  rw [Nat.testBit_and, testBit_mask, Nat.testBit_or, Nat.testBit_shiftLeft,
    Nat.testBit_shiftRight]

theorem rotrCore_testBit (val w k j : Nat) :
    (rotrCore val w k).testBit j =
      ((val.testBit (k + j) || (decide (j ≥ w - k) && val.testBit (j - (w - k)))) &&
        decide (j < w)) := by
  unfold rotrCore
  rw [Nat.testBit_and, testBit_mask, Nat.testBit_or, Nat.testBit_shiftLeft,
    Nat.testBit_shiftRight]

theorem rotlCore_lt (val w k : Nat) : rotlCore val w k < 2 ^ w := by
  unfold rotlCore
  exact and_mask_lt _ w

/-- C5: for every width `w > 0`, every `v ∈ [0, 2^w - 1]` and every
`k ∈ [0, w)`, rotating left by `k` and then right by `k` returns `v`. -/
theorem rotate_roundtrip (w v k : Nat) (hw : 0 < w) (hv : v ≤ 2 ^ w - 1)
    (hk : k < w) :
    rotateRight (rotateLeft v w k) w k = v := by
  have hvlt : v < 2 ^ w := by have := Nat.two_pow_pos w; omega
  have hmod : k % w = k := Nat.mod_eq_of_lt hk
  unfold rotateLeft rotateRight
  rw [if_neg (by omega), if_neg (by omega), hmod, and_mask_of_lt hvlt,
    and_mask_of_lt (rotlCore_lt v w k)]
  apply Nat.eq_of_testBit_eq
  intro j
  rw [rotrCore_testBit]
  by_cases hj : j < w
  · rw [decide_eq_true hj, Bool.and_true, rotlCore_testBit, rotlCore_testBit]
    by_cases h1 : k + j < w
    · -- the wrapped-around operand is dead: `j ≥ w - k` is false
      have h2 : ¬ j ≥ w - k := by omega
      rw [decide_eq_false h2, Bool.false_and, Bool.or_false,
        decide_eq_true h1, Bool.and_true, decide_eq_true (by omega : k + j ≥ k)]
      rw [Bool.true_and, show k + j - k = j by omega,
        testBit_ge hvlt (by omega : w ≤ w - k + (k + j)), Bool.or_false]
    · -- the direct operand is dead: bit `k + j` of the rotl result is `≥ w`
      have h2 : j ≥ w - k := by omega
      rw [decide_eq_false (by omega : ¬ k + j < w), Bool.and_false, Bool.false_or,
        decide_eq_true h2, Bool.true_and,
        decide_eq_false (by omega : ¬ j - (w - k) ≥ k), Bool.false_and,
        Bool.false_or, decide_eq_true (by omega : j - (w - k) < w), Bool.and_true,
        show w - k + (j - (w - k)) = j by omega]
  · rw [decide_eq_false hj, Bool.and_false]
    exact (testBit_ge hvlt (by omega)).symm

/-- Witness for C5 at `w = 8`, `v = 0x81`, `k = 3`. -/
theorem rotate_roundtrip_witness : rotateRight (rotateLeft 0x81 8 3) 8 3 = 0x81 :=
  rotate_roundtrip 8 0x81 3 (by decide) (by decide) (by decide)

/-! ### Claim C2: the arithmetic right shift matches the closed form -/

theorem asr_iter_msb_zero (w msb v n : Nat) (h : msb ≠ 1) :
    (asrStep w msb)^[n] v = v >>> n := by
  induction n with
  | zero => simp
  | succ n ih =>
    rw [Function.iterate_succ_apply', ih]
    unfold asrStep
    rw [if_neg h, ← Nat.shiftRight_add]

theorem asrStep_one (w val : Nat) : asrStep w 1 val = (val >>> 1) ||| (1 <<< (w - 1)) := by
  unfold asrStep
  rw [if_pos rfl]

theorem asr_iter_testBit (w : Nat) (hw : 1 ≤ w) (v n j : Nat) :
    ((asrStep w 1)^[n] v).testBit j =
      (v.testBit (j + n) || decide (j < w ∧ w ≤ j + n)) := by
  induction n generalizing j with
  | zero => simp
  | succ n ih =>
    rw [Function.iterate_succ_apply', asrStep_one, Nat.testBit_or,
      Nat.testBit_shiftRight, ih (1 + j), Nat.one_shiftLeft, Nat.testBit_two_pow,
      show 1 + j + n = j + (n + 1) by omega]
    cases hb : v.testBit (j + (n + 1))
    · rw [Bool.false_or, Bool.false_or, Bool.eq_iff_iff]
      simp only [Bool.or_eq_true, decide_eq_true_eq]
      omega
    · simp

/-- C2: for every width `w ∈ {8,...,64}`, every stored `v ∈ [0, 2^w - 1]`
and every amount `n ≥ 0`, the iterative arithmetic right shift of the
source equals the closed-form sign-extension rule of the specification
(`asrSpec`): with `msb = (v >> (w-1)) & 1`, if `msb = 1` the result is
`(v >> n) | (mask w & ~(mask w >> n))` for `n < w` and `mask w` for
`n ≥ w`; if `msb = 0` it is the logical right shift, which saturates to
`0` for `n ≥ w`. -/
theorem asr_closed_form (w : Nat) (h8 : 8 ≤ w) (h64 : w ≤ 64) (v : Nat)
    (hv : v ≤ mask w) (n : Nat) :
    shiftRightArithmetic v w n = asrSpec v w n := by
  have hw1 : 1 ≤ w := by omega
  have hvlt : v < 2 ^ w := Nat.lt_of_le_of_lt hv (mask_lt w)
  unfold shiftRightArithmetic asrSpec
  rw [if_neg (by omega : ¬ w = 0)]
  by_cases hmsb : (v >>> (w - 1)) &&& 1 = 1
  · rw [hmsb, if_pos rfl]
    by_cases hn : n < w
    · rw [if_pos hn]
      have hmasks : mask w >>> n = mask (w - n) := by
        apply Nat.eq_of_testBit_eq
        intro j
        rw [Nat.testBit_shiftRight, testBit_mask, testBit_mask]
        exact decide_eq_decide.mpr (by omega)
      have hmlt : mask (w - n) < 2 ^ w :=
        Nat.lt_of_lt_of_le (mask_lt _) (Nat.pow_le_pow_right (by omega) (by omega))
      have hinv : invert (mask (w - n)) w = (mask n) <<< (w - n) := by
        rw [invert_eq hmlt, mask_eq, mask_eq, Nat.shiftLeft_eq]
        have hpow : (2 : Nat) ^ n * 2 ^ (w - n) = 2 ^ w := by
          rw [← pow_add]
          congr 1
          omega
        have h1 : (1 : Nat) ≤ 2 ^ n := Nat.one_le_two_pow
        have h2 : (1 : Nat) ≤ 2 ^ (w - n) := Nat.one_le_two_pow
        rw [Nat.sub_mul, Nat.one_mul, hpow]
        omega
      rw [hmasks, hinv]
      apply Nat.eq_of_testBit_eq
      intro j
      rw [Nat.testBit_and, testBit_mask, asr_iter_testBit w hw1 v n j,
        Nat.testBit_or, Nat.testBit_shiftRight, Nat.testBit_shiftLeft, testBit_mask,
        show n + j = j + n by omega]
      by_cases hj : j < w
      · rw [decide_eq_true hj, Bool.and_true]
        cases hb : v.testBit (j + n)
        · rw [Bool.false_or, Bool.false_or, Bool.eq_iff_iff]
          simp only [Bool.and_eq_true, decide_eq_true_eq]
          omega
        · simp
      · rw [decide_eq_false hj, Bool.and_false,
          testBit_ge hvlt (by omega : w ≤ j + n),
          decide_eq_false (by omega : ¬ j - (w - n) < n)]
        simp
    · rw [if_neg hn]
      apply Nat.eq_of_testBit_eq
      intro j
      rw [Nat.testBit_and, asr_iter_testBit w hw1 v n j, testBit_mask]
      by_cases hj : j < w
      · rw [decide_eq_true hj, Bool.and_true,
          decide_eq_true (show j < w ∧ w ≤ j + n from ⟨hj, by omega⟩)]
        simp
      · rw [decide_eq_false hj, Bool.and_false]
  · rw [if_neg hmsb, asr_iter_msb_zero w _ v n hmsb]
    rfl

/-- Witness for C2 at `w = 8`, `v = 0x80` (msb set), `n = 3`. -/
theorem asr_closed_form_witness : shiftRightArithmetic 0x80 8 3 = asrSpec 0x80 8 3 :=
  asr_closed_form 8 (by decide) (by decide) 0x80 (by decide) 3

/-! ### Claim C8: what the field validators accept -/

theorem digitVal_underscore : digitVal '_' = none := by decide

theorem digitVal_plus : digitVal '+' = none := by decide

theorem digitVal_minus : digitVal '-' = none := by decide

theorem isDigitOf_spec {base : Nat} {c : Char} (h : isDigitOf base c = true) :
    ∃ v, digitVal c = some v ∧ v < base := by
  unfold isDigitOf at h
  cases hd : digitVal c with
  | none => rw [hd] at h; cases h
  | some v =>
    rw [hd] at h
    simp only [decide_eq_true_eq] at h
    exact ⟨v, rfl, h⟩

theorem isDigitOf_ne_underscore {base : Nat} {c : Char} (h : isDigitOf base c = true) :
    ¬ c = '_' := by
  intro he
  obtain ⟨v, hd, _⟩ := isDigitOf_spec h
  subst he
  rw [digitVal_underscore] at hd
  cases hd

theorem space_digitVal {c : Char} (h : isSpaceChar c = true) : digitVal c = none := by
  unfold isSpaceChar at h
  simp only [Bool.or_eq_true, beq_iff_eq] at h
  rcases h with ((((h | h) | h) | h) | h) | h <;> subst h <;> decide

theorem isDigitOf_not_space {base : Nat} {c : Char} (h : isDigitOf base c = true) :
    isSpaceChar c = false := by
  obtain ⟨v, hd, _⟩ := isDigitOf_spec h
  by_contra hs
  rw [Bool.not_eq_false] at hs
  rw [space_digitVal hs] at hd
  cases hd

theorem digitsValTail_digits (base : Nat) :
    ∀ (l : List Char) (acc : Nat), l.all (isDigitOf base) = true →
      (digitsValTail base l acc).isSome = true := by
  intro l
  induction l with
  | nil => intro acc _; rfl
  | cons c rest ih =>
    intro acc hall
    rw [List.all_cons, Bool.and_eq_true] at hall
    obtain ⟨hc, hrest⟩ := hall
    obtain ⟨v, hd, hvb⟩ := isDigitOf_spec hc
    unfold digitsValTail
    rw [if_neg (isDigitOf_ne_underscore hc), hd]
    show (if v < base then digitsValTail base rest (acc * base + v) else none).isSome = true
    rw [if_pos hvb]
    exact ih _ hrest

theorem digitsVal_digits (base : Nat) (l : List Char) (hne : l ≠ [])
    (hall : l.all (isDigitOf base) = true) : (digitsVal base l).isSome = true := by
  cases l with
  | nil => exact absurd rfl hne
  | cons c rest =>
    rw [List.all_cons, Bool.and_eq_true] at hall
    obtain ⟨hc, hrest⟩ := hall
    obtain ⟨v, hd, hvb⟩ := isDigitOf_spec hc
    show (match digitVal c with
        | some v => if v < base then digitsValTail base rest v else none
        | none => none).isSome = true
    rw [hd]
    show (if v < base then digitsValTail base rest v else none).isSome = true
    rw [if_pos hvb]
    exact digitsValTail_digits base rest v hrest

theorem dropWhile_ws_of_digits {base : Nat} {l : List Char}
    (h : l.all (isDigitOf base) = true) : l.dropWhile isSpaceChar = l := by
  cases l with
  | nil => rfl
  | cons c rest =>
    rw [List.all_cons, Bool.and_eq_true] at h
    rw [List.dropWhile_cons, isDigitOf_not_space h.1]
    simp

theorem stripWS_digits {base : Nat} {l : List Char}
    (h : l.all (isDigitOf base) = true) : stripWS l = l := by
  unfold stripWS
  rw [dropWhile_ws_of_digits h,
    dropWhile_ws_of_digits (by rw [List.all_reverse]; exact h),
    List.reverse_reverse]

theorem signSplit_digits {base : Nat} {l : List Char}
    (h : l.all (isDigitOf base) = true) : signSplit l = (1, l) := by
  cases l with
  | nil => rfl
  | cons c rest =>
    rw [List.all_cons, Bool.and_eq_true] at h
    obtain ⟨v, hd, _⟩ := isDigitOf_spec h.1
    have hplus : ¬ c = '+' := by
      intro he; subst he; rw [digitVal_plus] at hd; cases hd
    have hminus : ¬ c = '-' := by
      intro he; subst he; rw [digitVal_minus] at hd; cases hd
    show (if c = '+' then ((1 : Int), rest)
        else if c = '-' then ((-1 : Int), rest) else ((1 : Int), c :: rest)) =
      ((1 : Int), c :: rest)
    rw [if_neg hplus, if_neg hminus]

theorem stripBaseMarker_digits {base : Nat}
    (hb : base = 2 ∨ base = 8 ∨ base = 10 ∨ base = 16)
    {l : List Char} (h : l.all (isDigitOf base) = true) :
    stripBaseMarker base l = l := by
  rcases l with _ | ⟨c0, l1⟩
  · rfl
  · rcases l1 with _ | ⟨c1, rest⟩
    · rfl
    · simp only [List.all_cons, Bool.and_eq_true] at h
      obtain ⟨h0, h1, _⟩ := h
      show (if c0 = '0' ∧ ((base = 16 ∧ (c1 = 'x' ∨ c1 = 'X')) ∨
            (base = 8 ∧ (c1 = 'o' ∨ c1 = 'O')) ∨
            (base = 2 ∧ (c1 = 'b' ∨ c1 = 'B')))
          then dropOneUnderscore rest
          else c0 :: c1 :: rest) = c0 :: c1 :: rest
      rw [if_neg]
      rintro ⟨hc0, hcond⟩
      rcases hcond with ⟨hbase, hx⟩ | ⟨hbase, hx⟩ | ⟨hbase, hx⟩ <;> subst hbase <;>
        rcases hx with hx | hx <;> subst hx <;> exact absurd h1 (by decide)

theorem pyInt_digits {base : Nat}
    (hb : base = 2 ∨ base = 8 ∨ base = 10 ∨ base = 16)
    {l : List Char} (hne : l ≠ []) (hall : l.all (isDigitOf base) = true) :
    (pyInt l base).isSome = true := by
  unfold pyInt
  rw [Option.isSome_map', stripWS_digits hall, signSplit_digits hall]
  show (digitsVal base (stripBaseMarker base l)).isSome = true
  rw [stripBaseMarker_digits hb hall]
  exact digitsVal_digits base l hne hall

theorem startsWithNeg_digits {base : Nat} {l : List Char}
    (h : l.all (isDigitOf base) = true) : startsWithNeg l = false := by
  cases l with
  | nil => rfl
  | cons c rest =>
    rw [List.all_cons, Bool.and_eq_true] at h
    obtain ⟨v, hd, _⟩ := isDigitOf_spec h.1
    show (c == '-') = false
    rw [beq_eq_false_iff_ne]
    intro he; subst he; rw [digitVal_minus] at hd; cases hd

theorem data_ne_nil {P : String} (h : ¬ P = "") : P.data ≠ [] := by
  intro hd
  exact h (String.ext (by rw [hd]))

theorem validateInput_of_digits {base : Nat}
    (hb : base = 2 ∨ base = 8 ∨ base = 10 ∨ base = 16)
    {P : String} (hall : P.data.all (isDigitOf base) = true) :
    validateInput P base = true := by
  unfold validateInput
  by_cases hP : P = ""
  · subst hP; rfl
  · rw [pyInt_digits hb (data_ne_nil hP) hall]
    exact Bool.or_true _

/-- C8 counterexample: the hex field validator accepts the text `"+1"`,
which contains a sign character and is not composed solely of base-16
digits, so "accept iff empty or all characters are digits of the base"
fails on the code. -/
theorem validateHex_accepts_sign :
    validateHex "+1" = true ∧ ("+1" : String).data.all (isDigitOf 16) = false := by
  constructor
  · decide
  · decide

/-- C8 amended: each of the hex, octal, binary and unsigned-decimal
validators accepts a candidate iff it is empty or Python's
`int(text, base)` succeeds on it (the unsigned-decimal field first rejects
any text whose leading character is `'-'`).  Every nonempty all-digit text
is accepted, but so are texts carrying a `'+'` or `'-'` sign, surrounding
whitespace, a matching base marker, or single underscores between digits. -/
theorem validators_characterization (P : String) :
    (P.data.all (isDigitOf 16) = true → validateHex P = true) ∧
    (P.data.all (isDigitOf 8) = true → validateOct P = true) ∧
    (P.data.all (isDigitOf 2) = true → validateBin P = true) ∧
    (P.data.all (isDigitOf 10) = true → validateDec false P = true) ∧
    (validateHex P = true ↔ P = "" ∨ (pyInt P.data 16).isSome = true) ∧
    (validateOct P = true ↔ P = "" ∨ (pyInt P.data 8).isSome = true) ∧
    (validateBin P = true ↔ P = "" ∨ (pyInt P.data 2).isSome = true) ∧
    (validateDec false P = true ↔
      startsWithNeg P.data = false ∧ (P = "" ∨ (pyInt P.data 10).isSome = true)) := by
  have hiff : ∀ base : Nat, (validateInput P base = true ↔
      P = "" ∨ (pyInt P.data base).isSome = true) := by
    intro base
    unfold validateInput
    rw [Bool.or_eq_true, beq_iff_eq]
  have hdec : P.data.all (isDigitOf 10) = true → validateDec false P = true := by
    intro hall
    show (if startsWithNeg P.data then false else validateInput P 10) = true
    rw [startsWithNeg_digits hall, if_neg Bool.false_ne_true]
    exact validateInput_of_digits (Or.inr (Or.inr (Or.inl rfl))) hall
  have hdeciff : validateDec false P = true ↔
      startsWithNeg P.data = false ∧ (P = "" ∨ (pyInt P.data 10).isSome = true) := by
    show (if startsWithNeg P.data then false else validateInput P 10) = true ↔ _
    cases hsw : startsWithNeg P.data
    · rw [if_neg Bool.false_ne_true, hiff 10]
      simp
    · rw [if_pos rfl]
      simp
  exact ⟨fun h => validateInput_of_digits (Or.inr (Or.inr (Or.inr rfl))) h,
    fun h => validateInput_of_digits (Or.inr (Or.inl rfl)) h,
    fun h => validateInput_of_digits (Or.inl rfl) h,
    hdec, hiff 16, hiff 8, hiff 2, hdeciff⟩

/-- Witness for the amended C8 at the all-digit hex text `"2A"`. -/
theorem validators_characterization_witness : validateHex "2A" = true :=
  (validators_characterization "2A").1 (by decide)

/-! ### Claim C1: where the masking invariant holds -/

/-- The invariant of the claim: a stored value lies in `[0, 2^w - 1]`. -/
def inWidth (x : Int) (w : Nat) : Prop := 0 ≤ x ∧ x ≤ 2 ^ w - 1

theorem andMask_inWidth (x : Int) (w : Nat) : inWidth (andMask x w) w :=
  ⟨andMask_nonneg x w, by have := andMask_lt x w; omega⟩

theorem natCast_inWidth {x : Nat} {w : Nat} (h : x < 2 ^ w) : inWidth (x : Int) w := by
  have hc : ((2 : Int) ^ w) = ((2 ^ w : Nat) : Int) := by push_cast; ring
  constructor
  · exact Int.natCast_nonneg x
  · rw [hc]
    omega

theorem foldl_bits_lt (bv : Nat → Bool) (w : Nat) :
    ∀ l : List Nat, (∀ i ∈ l, bv i = true → i < w) →
      ∀ acc, acc < 2 ^ w →
        (l.foldl (fun acc i => if bv i then acc ||| (1 <<< i) else acc) acc) < 2 ^ w := by
  intro l
  induction l with
  | nil => intro _ acc hacc; exact hacc
  | cons c rest ih =>
    intro hl acc hacc
    rw [List.foldl_cons]
    refine ih (fun i hi hb => hl i (List.mem_cons_of_mem c hi) hb) _ ?_
    by_cases hc : bv c
    · rw [if_pos hc, Nat.one_shiftLeft]
      exact Nat.or_lt_two_pow hacc
        (Nat.pow_lt_pow_right (by omega) (hl c (List.mem_cons_self c rest) hc))
    · rw [if_neg hc]
      exact hacc

theorem bitsValue_lt {bv : Nat → Bool} {w : Nat} (hw : 1 ≤ w)
    (h : ∀ i, w ≤ i → bv i = false) : bitsValue bv < 2 ^ w := by
  unfold bitsValue
  refine foldl_bits_lt bv w _ ?_ 0 (Nat.two_pow_pos w)
  intro i _ hb
  by_contra hge
  rw [h i (by omega)] at hb
  cases hb

theorem parseSignedDec_inWidth (numVal : Int) (w : Nat) (hw : 1 ≤ w) :
    inWidth (parseSignedDec numVal w) w := by
  have hsplit := two_pow_split_int hw
  have hp1 : (0 : Int) < 2 ^ (w - 1) := by positivity
  unfold parseSignedDec
  split_ifs with h1 h2 h3
  · constructor <;> omega
  · exact andMask_inWidth _ _
  · constructor <;> omega
  · exact andMask_inWidth _ _

/-- C1 counterexample: typing `"100"` into the HEX field at width 8 (a
complete, validator-accepted edit) stores the raw parsed integer `256`,
which lies outside `[0, 2^Width - 1]`: the hex/oct/bin/unsigned-dec parse
path does not mask the stored value. -/
theorem hex_parse_unmasked :
    (updateFromEntry ⟨0, 1, false, 1⟩ .hex "100").currentValue = 256 ∧
      ¬ ((updateFromEntry ⟨0, 1, false, 1⟩ .hex "100").currentValue ≤
          2 ^ ((updateFromEntry ⟨0, 1, false, 1⟩ .hex "100").numBytes * 8) - 1) := by
  constructor
  · decide
  · decide

/-- C1 amended: the invariant `BitValue ∈ [0, 2^Width - 1]` is established
by every bit toggle whose inactive checkbox variables are all clear (as the
display pass guarantees), by every width change, by every successful
signed-decimal parse (an empty text stores `0`; a failed parse leaves the
value unchanged), and by every bitwise operation invoked with a
non-negative amount; a sign-mode toggle never changes the stored value.
The hex/octal/binary/unsigned-decimal parse path, by contrast, stores the
raw parsed integer unmasked — see the counterexample theorem — so the
invariant does not hold after those transitions. -/
theorem masked_after_transitions (s : BitCalcState) (hb : 1 ≤ s.numBytes) :
    (∀ bitVars : Nat → Bool, (∀ i, s.numBytes * 8 ≤ i → bitVars i = false) →
      inWidth (updateFromBits s bitVars).currentValue (s.numBytes * 8)) ∧
    (∀ b, 1 ≤ b → b ≤ 8 → inWidth (setNumBytes s b).currentValue (b * 8)) ∧
    (∀ m, (setSignedMode s m).currentValue = s.currentValue) ∧
    (s.signedMode = true → ∀ text : String,
      stripWS text.data = [] ∨ (pyInt (stripWS text.data) 10).isSome = true →
      inWidth (updateFromEntry s .dec text).currentValue (s.numBytes * 8)) ∧
    (0 ≤ s.shiftAmount →
      inWidth (shiftLeftOp s).currentValue (s.numBytes * 8) ∧
      inWidth (shiftRightLogicalOp s).currentValue (s.numBytes * 8) ∧
      inWidth (shiftRightArithmeticOp s).currentValue (s.numBytes * 8) ∧
      inWidth (rotateLeftOp s).currentValue (s.numBytes * 8) ∧
      inWidth (rotateRightOp s).currentValue (s.numBytes * 8)) ∧
    inWidth (invertOp s).currentValue (s.numBytes * 8) ∧
    inWidth (reverseBitsOp s).currentValue (s.numBytes * 8) ∧
    (clearOp s).currentValue = 0 := by
  have hw1 : 1 ≤ s.numBytes * 8 := by omega
  have hw0 : ¬ s.numBytes * 8 = 0 := by omega
  have hzero : inWidth 0 (s.numBytes * 8) := by
    constructor
    · exact le_refl 0
    · have : (0 : Int) < 2 ^ (s.numBytes * 8) := by positivity
      omega
  refine ⟨?_, ?_, ?_, ?_, ?_, ?_, ?_, rfl⟩
  · intro bitVars hclear
    exact natCast_inWidth (bitsValue_lt hw1 hclear)
  · intro b hb1 _
    exact andMask_inWidth _ _
  · intro m
    rfl
  · intro hsm text hok
    unfold updateFromEntry
    by_cases hempty : stripWS text.data = []
    · rw [if_pos hempty]
      exact hzero
    · rw [if_neg hempty, hsm]
      have hsome : (pyInt (stripWS text.data) 10).isSome = true := by
        rcases hok with h | h
        · exact absurd h hempty
        · exact h
      obtain ⟨numVal, hnv⟩ := Option.isSome_iff_exists.mp hsome
      rw [hnv]
      show inWidth (parseSignedDec numVal (s.numBytes * 8)) (s.numBytes * 8)
      exact parseSignedDec_inWidth numVal _ hw1
  · intro hamt
    have hneg : ¬ s.shiftAmount < 0 := by omega
    refine ⟨?_, ?_, ?_, ?_, ?_⟩
    · unfold shiftLeftOp
      rw [if_neg hneg]
      exact andMask_inWidth _ _
    · unfold shiftRightLogicalOp
      rw [if_neg hneg]
      exact andMask_inWidth _ _
    · unfold shiftRightArithmeticOp
      rw [if_neg hneg, if_neg hw0]
      exact andMask_inWidth _ _
    · unfold rotateLeftOp
      rw [if_neg hneg, if_neg hw0]
      exact natCast_inWidth (rotlCore_lt _ _ _)
    · unfold rotateRightOp
      rw [if_neg hneg, if_neg hw0]
      exact natCast_inWidth (and_mask_lt _ _)
  · unfold invertOp
    exact andMask_inWidth _ _
  · unfold reverseBitsOp
    exact natCast_inWidth (reverseCore_lt _ _)

/-- Witness for the amended C1 at a concrete state whose stored value `300`
is outside the 8-bit range: inverting masks it back into `[0, 255]`. -/
theorem masked_after_transitions_witness :
    inWidth (invertOp ⟨300, 1, true, 2⟩).currentValue (1 * 8) :=
  (masked_after_transitions ⟨300, 1, true, 2⟩ (by decide)).2.2.2.2.2.1

end BitTool
